import Mathlib

/-!
Verification of the SolverLLM MCTS core (week_02/OptMCTS).

This file shallowly embeds the algorithmic parts of the repository that the
specification describes: execution-result validity (`core/executor.py`),
numeric answer extraction and comparison (`evaluation/evaluator.py`), the
simulation reward and its ground-truth override, the `search()` result
tracking loop, backpropagation value updates, the knowledge-base trim,
UCB1, the SELECT walk with Dynamic Expansion, and similarity pruning
(`mcts/search.py`, `mcts/node.py`).

Python floats are modelled as `ℚ` where only field arithmetic and
comparisons occur, and as `ℝ` where transcendental functions
(`math.exp`, `math.sqrt`, `math.log`) appear.  Calls to external
collaborators (the LLM, the subprocess executor, difflib's
`SequenceMatcher.ratio`) are abstracted as parameters; everything the
repository itself computes is embedded concretely.
-/

/-- Result of `execute_code` in `core/executor.py`: a dict with keys
`success`, `output` (stdout) and `error` (stderr). -/
structure ExecResult where
  success : Bool
  output : String
  error : String
deriving DecidableEq, Repr

/-- Embeds `re.search(r"-?[\d.]+", output)` from `core/executor.py`.
The pattern `[\d.]+` needs at least one character from the class
`[0-9.]` and the optional sign adds nothing to matchability, so a match
exists somewhere in the string iff some character is a digit or a dot. -/
def hasNumCharMatch (s : String) : Bool :=
  s.data.any (fun c => c.isDigit || c == '.')

/-- `is_valid` from `core/executor.py`: success and the stdout regex test. -/
def is_valid (r : ExecResult) : Bool :=
  r.success && hasNumCharMatch r.output

/-- Sign characters admitted by the extraction regex `[-+]?...`. -/
def isSign (c : Char) : Bool :=
  c == '-' || c == '+'

/-- All characters are decimal digits. -/
def allDigits (l : List Char) : Bool :=
  l.all Char.isDigit

/-- Modelled from the spec sentence of C3: a token that "parses as a signed
integer or decimal": an optional sign followed by a nonempty digit run
(integer) or by one dot with digit runs around it, at least one digit in
total (decimal).  This is the spec-side notion used to test the claim;
the code-side notion is `hasNumCharMatch`. -/
def isUnsignedNumberToken (l : List Char) : Bool :=
  let ip := l.takeWhile (fun c => c != '.')
  let rest := l.dropWhile (fun c => c != '.')
  match rest with
  | [] => !l.isEmpty && allDigits l
  | _ :: fp => allDigits ip && allDigits fp && (!ip.isEmpty || !fp.isEmpty)

/-- A signed integer or decimal token (see `isUnsignedNumberToken`). -/
def isNumberToken (l : List Char) : Bool :=
  match l with
  | [] => false
  | c :: rest => if isSign c then isUnsignedNumberToken rest else isUnsignedNumberToken l

/-- Modelled from the spec sentence of C3: the stdout "contains at least one
parseable number" iff some contiguous substring is a signed integer or
decimal token. -/
def stdoutHasParseableNumber (s : String) : Bool :=
  (s.data.tails.flatMap List.inits).any isNumberToken

/-!
Answer extraction (`evaluation/evaluator.py`):
`re.findall(r"[-+]?\d*\.\d+|\d+", output)`, last match, parsed as float.

The scanner below embeds Python's `findall` for this particular pattern:
at each position the engine first tries the alternative `[-+]?\d*\.\d+`
(optional sign, greedy digit run, a literal dot, a nonempty greedy digit
run) and then `\d+` (a nonempty greedy digit run); on failure it advances
one character.  Backtracking never helps this pattern: quantifier bodies
(digits) can never satisfy the following literal (a dot), and a sign
character can start no alternative other than as the consumed sign.
-/

/-- Consume the optional sign `[-+]?` at the head of `l`. -/
def stripSign : List Char → List Char × List Char
  | c :: rest => if isSign c then ([c], rest) else ([], c :: rest)
  | [] => ([], [])

/-- The sign-free part `\d*\.\d+` of the first regex alternative, matched
at the head of `l1`: a greedy digit run, a literal dot, a nonempty greedy
digit run. -/
def branchDecCore (l1 : List Char) : Option (List Char × List Char) :=
  match l1.dropWhile Char.isDigit with
  | c2 :: l3 =>
    if c2 = '.' then
      if (l3.takeWhile Char.isDigit).isEmpty then none
      else some (l1.takeWhile Char.isDigit ++ '.' :: l3.takeWhile Char.isDigit,
                 l3.dropWhile Char.isDigit)
    else none
  | [] => none

/-- First regex alternative `[-+]?\d*\.\d+` matched at the head of `l`:
returns the consumed token and the remaining suffix. -/
def branchDec (l : List Char) : Option (List Char × List Char) :=
  match branchDecCore (stripSign l).2 with
  | some (tok, r) => some ((stripSign l).1 ++ tok, r)
  | none => none

/-- Second regex alternative `\d+` matched at the head of `l`. -/
def branchInt (l : List Char) : Option (List Char × List Char) :=
  match l with
  | [] => none
  | c :: _ => if c.isDigit then some (l.takeWhile Char.isDigit, l.dropWhile Char.isDigit) else none

/-- One attempt of the full pattern `[-+]?\d*\.\d+|\d+` at the head of `l`:
leftmost alternative first. -/
def matchNumAt (l : List Char) : Option (List Char × List Char) :=
  match branchDec l with
  | some r => some r
  | none => branchInt l

/-- Fuel-driven scan over the string, one fuel unit per position or match;
`fuel = l.length` always suffices because every match consumes at least
one character. -/
def scanLoop : ℕ → List Char → List (List Char)
  | 0, _ => []
  | _ + 1, [] => []
  | fuel + 1, c :: rest =>
    match matchNumAt (c :: rest) with
    | some (tok, r) => tok :: scanLoop fuel r
    | none => scanLoop fuel rest

/-- All matches of `[-+]?\d*\.\d+|\d+` in `l`, in order (Python `findall`). -/
def scanNums (l : List Char) : List (List Char) :=
  scanLoop l.length l

/-- Value of a digit run, as `int(...)` would parse it. -/
def digitsToNat (l : List Char) : ℕ :=
  l.foldl (fun a c => 10 * a + (c.toNat - 48)) 0

/-- Value of an unsigned token (digits with at most one dot), as Python
`float(...)` parses it, modelled exactly in `ℚ`. -/
def unsignedToRat (l : List Char) : ℚ :=
  let ip := l.takeWhile (fun c => c != '.')
  let rest := l.dropWhile (fun c => c != '.')
  match rest with
  | [] => (digitsToNat ip : ℚ)
  | _ :: fp => (digitsToNat ip : ℚ) + (digitsToNat fp : ℚ) / 10 ^ fp.length

/-- Value of a token produced by the extraction regex, as `float(tok)`:
an optional sign followed by an unsigned number. -/
def tokenToRat (l : List Char) : ℚ :=
  match l with
  | [] => unsignedToRat []
  | c :: rest =>
    if c = '-' then -(unsignedToRat rest)
    else if c = '+' then unsignedToRat rest
    else unsignedToRat (c :: rest)

/-- `extract_answer` from `evaluation/evaluator.py`: the last regex match
in the output, parsed as a float (the `float(...)` call never fails on a
token produced by this pattern, so the `except` branch is dead). -/
def extract_answer (s : String) : Option ℚ :=
  match (scanNums s.data).getLast? with
  | some tok => some (tokenToRat tok)
  | none => none

/-- `evaluate` from `evaluation/evaluator.py`: `None` never matches;
relative error below `0.1` when `|actual| > 1e-8`, else absolute error
below `1e-4`. -/
def evaluate (predicted : Option ℚ) (actual : ℚ) : Bool :=
  match predicted with
  | none => false
  | some p =>
    if 1e-8 < |actual| then decide (|p - actual| / |actual| < 0.1)
    else decide (|p - actual| < 1e-4)

/-- Modelled from the spec formula `clamp(0, 1, x)`. -/
def clamp (lo hi x : ℚ) : ℚ :=
  max lo (min hi x)

/-- Reward formula of `MCTS._simulate` before the ground-truth override:
`max(0.0, min(1.0, 0.1*feasible + 0.8*mean_score - 0.1*error_flag))`
with `mean_score = sum(scores)/len(scores)/100`. -/
def baseReward (success : Bool) (scores : List ℚ) : ℚ :=
  let mean_score := scores.sum / scores.length / 100
  let feasible : ℚ := if success then 1 else 0
  let error_flag : ℚ := if success then 0 else 1
  max 0 (min 1 (0.1 * feasible + 0.8 * mean_score - 0.1 * error_flag))

/-- The reward computed by `MCTS._simulate` including the ground-truth
override: if an expected answer is supplied and the result is valid and
the extracted answer matches, the reward is `1.0`, else the formula
reward. -/
def MCTS.simulateReward (result : ExecResult) (scores : List ℚ)
    (expected : Option ℚ) : ℚ :=
  let reward := baseReward result.success scores
  match expected with
  | none => reward
  | some e =>
    if is_valid result then
      (if evaluate (extract_answer result.output) e then 1 else reward)
    else reward

/-!
The `MCTS.search` result-tracking loop.  The per-iteration work (LLM
calls, code execution, evaluation) is nondeterministic external input;
one run of the loop is determined by the sequence of iteration outcomes:
either the iteration was skipped (`_expand` returned `None`, the `continue`
branch) or it produced a reward and an execution result.  The embedding
folds the tracking code of `search()` over that sequence and also counts
how many loop iterations actually ran, so that the early exit is
observable.
-/

/-- Outcome of one `search()` loop iteration. -/
inductive IterOutcome where
  | skip
  | sim (reward : ℚ) (result : ExecResult)
deriving DecidableEq, Repr

/-- Did this iteration reach the `reward >= 1.0` branch? -/
def IterOutcome.highReward : IterOutcome → Bool
  | .skip => false
  | .sim r _ => decide (1 ≤ r)

/-- Did this iteration produce a successful execution result? -/
def IterOutcome.succeeded : IterOutcome → Bool
  | .skip => false
  | .sim _ res => res.success

/-- The execution result carried by a simulated iteration. -/
def IterOutcome.resultOf : IterOutcome → ExecResult
  | .skip => ⟨false, "", "No solution found"⟩
  | .sim _ res => res

/-- The sentinel `best_result` that `search()` starts from:
`{"success": False, "output": "", "error": "No solution found"}`. -/
def initBest : ExecResult :=
  ⟨false, "", "No solution found"⟩

/-- The result-tracking loop of `MCTS.search`, folded over the iteration
outcomes; returns the final `best_result` and the number of iterations
that ran.  `found_correct` is omitted as state because the loop breaks in
the same step that sets it, so it is `False` whenever it is read. -/
def searchLoop : List IterOutcome → ExecResult → ExecResult × ℕ
  | [], best => (best, 0)
  | .skip :: rest, best =>
    let r := searchLoop rest best
    (r.1, r.2 + 1)
  | .sim rw res :: rest, best =>
    if 1 ≤ rw then (res, 1)
    else if res.success && !best.success then
      let r := searchLoop rest res
      (r.1, r.2 + 1)
    else
      let r := searchLoop rest best
      (r.1, r.2 + 1)

/-- `MCTS.search` result tracking for a whole run. -/
def MCTS.search (iters : List IterOutcome) : ExecResult × ℕ :=
  searchLoop iters initBest

/-!
Uncertainty backpropagation (`MCTS._backpropagate`, tree update): each
node on the path gets `visits += 1` and then
`value += rho * (reward - value) / visits` with `rho = exp(-global_u)`.
From one node's point of view a run is a sequence of
(reward, global uncertainty) pairs applied to `(visits, value)`,
starting from `(0, 0)` for a freshly created node.
-/

/-- One `_backpropagate` update of a single node's statistics. -/
noncomputable def backpropStep (st : ℕ × ℝ) (ru : ℝ × ℝ) : ℕ × ℝ :=
  let visits := st.1 + 1
  let rho := Real.exp (-ru.2)
  (visits, st.2 + rho * (ru.1 - st.2) / visits)

/-- A node's statistics after a sequence of backpropagations, starting
from the freshly-constructed state `visits = 0`, `value = 0.0`. -/
noncomputable def backpropValue (updates : List (ℝ × ℝ)) : ℕ × ℝ :=
  updates.foldl backpropStep (0, 0)

/-!
Knowledge-base update (`MCTS._backpropagate`, step 1): per layer,
`kb.append(guidance); if len(kb) > 20: kb = kb[-10:]`.
-/

/-- One guidance insertion for one layer of the knowledge base. -/
def kbInsert (kb : List String) (g : String) : List String :=
  let kb2 := kb ++ [g]
  if 20 < kb2.length then kb2.drop (kb2.length - 10) else kb2

/-- One layer's knowledge-base list after a sequence of insertions,
starting from the empty list set up by `search()`. -/
def kbRun (gs : List String) : List String :=
  gs.foldl kbInsert []

/-- Modelled from the spec sentence of C6: "the last 10 elements" of a
list, written independently of the code's `kb[-10:]` slice. -/
def lastTen (l : List String) : List String :=
  (l.reverse.take 10).reverse

/-!
UCB1 (`mcts/node.py`).  `ucb1` reads only this node's `visits` and
`value` and the parent's `visits`, so the embedding carries the parent
back-reference as the single field `parentVisits`.  The Python float
`+infinity` returned for unvisited nodes is modelled as `⊤` in
`WithTop ℝ`, which compares strictly above every finite float, exactly
as `float("inf")` does.
-/

/-- The statistics of one tree node seen by `MCTSNode.ucb1`. -/
structure MCTSNode where
  visits : ℕ
  value : ℝ
  parentVisits : ℕ

/-- `MCTSNode.ucb1` from `mcts/node.py`:
infinity when unvisited, else `value + c * sqrt(2 * ln(parent.visits) / visits)`. -/
noncomputable def MCTSNode.ucb1 (n : MCTSNode) (c : ℝ) : WithTop ℝ :=
  if n.visits = 0 then ⊤
  else ((n.value + c * Real.sqrt (2 * Real.log n.parentVisits / n.visits) : ℝ) : WithTop ℝ)

/-!
The SELECT walk (`MCTS._select`).  The tree is embedded as a finite
inductive tree; `is_root` is tracked by a flag because the Python code
asks the current node for its parent pointer, which the walk itself
knows.  `random.choice` over the unvisited children is abstracted as a
`pick` parameter.  Python's `max(children, key=ucb1)` keeps the first
maximum under strict comparison, embedded as a left fold.  The
`while True` loop is driven by fuel; every descent moves to a child, so
any fuel at least the tree height reproduces the loop.
-/

/-- A formulation-tree node: layer, visits, Q-value, dynamic-expansion
trigger, local uncertainty, children. -/
inductive STree where
  | mk (layer : ℕ) (visits : ℕ) (value : ℝ) (trigger : Bool) (localU : ℚ)
      (children : List STree)

/-- Layer number of the node (0 = root, 6 = complete). -/
def STree.layer : STree → ℕ
  | .mk l _ _ _ _ _ => l

/-- Visit counter of the node. -/
def STree.visits : STree → ℕ
  | .mk _ v _ _ _ _ => v

/-- Q-value estimate of the node. -/
def STree.value : STree → ℝ
  | .mk _ _ q _ _ _ => q

/-- Dynamic-expansion trigger flag of the node. -/
def STree.trigger : STree → Bool
  | .mk _ _ _ t _ _ => t

/-- Local uncertainty of the node. -/
def STree.localU : STree → ℚ
  | .mk _ _ _ _ u _ => u

/-- Children of the node. -/
def STree.children : STree → List STree
  | .mk _ _ _ _ _ cs => cs

/-- UCB1 of a child, using the current node's visit count as the parent
visit count (`c.ucb1(self.C)` inside `_select`). -/
noncomputable def childUcb (cexp : ℝ) (parentVisits : ℕ) (t : STree) : WithTop ℝ :=
  MCTSNode.ucb1 ⟨t.visits, t.value, parentVisits⟩ cexp

/-- Python's `max(children, key=key)` over a nonempty list given as head
and tail: the first element with maximal key wins ties. -/
noncomputable def pythonMaxBy (key : STree → WithTop ℝ) (d : STree) (l : List STree) : STree :=
  l.foldl (fun best c => if key best < key c then c else best) d

/-- The `while True` body of `MCTS._select`, with `isRoot` true only for
the call on the root and `fuel` bounding the number of loop iterations
(any fuel at least the tree height is enough, since each pass either
returns or descends one layer). -/
noncomputable def MCTS.selectAux (eta : ℚ) (cexp : ℝ) (pick : List STree → STree) :
    ℕ → Bool → STree → STree
  | 0, _, t => t
  | fuel + 1, isRoot, t =>
    if !isRoot && !t.children.isEmpty && t.layer != 6
        && (t.trigger && decide (eta < t.localU)) then t
    else if t.children.isEmpty then t
    else
      let unvisited := t.children.filter (fun c => c.visits == 0)
      if !unvisited.isEmpty then pick unvisited
      else
        match t.children with
        | [] => t
        | c :: cs =>
          MCTS.selectAux eta cexp pick fuel false
            (pythonMaxBy (childUcb cexp t.visits) c cs)

/-!
Similarity pruning (`_similarity` and `_prune_similar` in
`mcts/search.py`).  `difflib.SequenceMatcher(None, a, b).ratio()` is a
Python-stdlib collaborator and is abstracted as the parameter `ratio`;
the lower-casing and 300-character truncation that `_similarity` applies
around it are embedded concretely.
-/

/-- `_similarity` from `mcts/search.py`: the stdlib ratio applied to the
lower-cased first 300 characters of each string. -/
def similarity (ratio : String → String → ℚ) (a b : String) : ℚ :=
  ratio (a.toLower.take 300) (b.toLower.take 300)

/-- The accumulator loop of `_prune_similar`: keep `c` only when its
similarity to every already-kept candidate is at most the threshold. -/
def pruneLoop (sim : String → String → ℚ) (thr : ℚ) :
    List String → List String → List String
  | pruned, [] => pruned
  | pruned, c :: cs =>
    if pruned.any (fun p => decide (thr < sim c p)) then pruneLoop sim thr pruned cs
    else pruneLoop sim thr (pruned ++ [c]) cs

/-- Same loop, returning only the newly kept part; `pruneLoop` equals its
accumulator followed by this (proved below), which makes the idempotence
induction go through. -/
def pruneNew (sim : String → String → ℚ) (thr : ℚ) :
    List String → List String → List String
  | _, [] => []
  | pruned, c :: cs =>
    if pruned.any (fun p => decide (thr < sim c p)) then pruneNew sim thr pruned cs
    else c :: pruneNew sim thr (pruned ++ [c]) cs

/-- `_prune_similar` from `mcts/search.py`: greedy keep, with fallback to
the first raw candidate when pruning would return nothing. -/
def prune_similar (ratio : String → String → ℚ) (threshold : ℚ)
    (candidates : List String) : List String :=
  let pruned := pruneLoop (similarity ratio) threshold [] candidates
  if pruned.isEmpty then candidates.take 1 else pruned

/-!
Theorems.  One theorem per claim of the specification audit, preceded by
the helper lemmas they share.
-/

/-- Claim C2: for every simulation, with feasible/error flags set by
execution success and `mean_score = sum(scores)/K/100`, the pre-override
reward is `clamp(0, 1, 0.1*feasible + 0.8*mean_score - 0.1*error_flag)`;
for scores `[80, 80, 80]` with a successful execution it is exactly
`0.74`. -/
theorem C2_reward_formula :
    (∀ (success : Bool) (scores : List ℚ), 0 < scores.length →
      baseReward success scores =
        clamp 0 1 (0.1 * (if success then (1 : ℚ) else 0)
          + 0.8 * (scores.sum / scores.length / 100)
          - 0.1 * (if success then (0 : ℚ) else 1))) ∧
    baseReward true [80, 80, 80] = 0.74 := by
  constructor
  · intro success scores _
    rfl
  · norm_num [baseReward, min_def, max_def]

/-- Witness for C2 at a concrete input. -/
theorem C2_reward_formula_witness :
    0 < ([80, 80, 80] : List ℚ).length ∧
    baseReward true [80, 80, 80] =
      clamp 0 1 (0.1 * (if true then (1 : ℚ) else 0)
        + 0.8 * (([80, 80, 80] : List ℚ).sum / ([80, 80, 80] : List ℚ).length / 100)
        - 0.1 * (if true then (0 : ℚ) else 1)) :=
  ⟨by decide, C2_reward_formula.1 true [80, 80, 80] (by decide)⟩

/-- Claim C3 counterexample: `is_valid` accepts a result whose stdout is a
single dot, which contains no parseable number, so the claimed
equivalence between `is_valid` and "success and stdout contains a
parseable number" fails at this input. -/
theorem C3_counterexample :
    ¬ (is_valid ⟨true, ".", ""⟩ = true ↔
        ((true : Bool) = true ∧ stdoutHasParseableNumber "." = true)) := by
  decide

/-- Claim C3 amended: `is_valid(result)` returns true iff
`result.success` is true and stdout contains at least one character that
is a digit or a dot (the regex `-?[\d.]+` also matches runs of dots with
no digit, so "contains a parseable number" is the wrong reading). -/
theorem C3_is_valid_amended (r : ExecResult) :
    is_valid r = true ↔
      (r.success = true ∧ ∃ c ∈ r.output.data, c.isDigit = true ∨ c = '.') := by
  simp [is_valid, hasNumCharMatch]

/-- Claim C7: a node with `visits == 0` gets UCB value `+infinity`, which
compares strictly above the UCB value of every visited node; a node with
`visits ≥ 1` whose parent has `visits ≥ 1` gets exactly
`value + C * sqrt(2 * ln(parent.visits) / visits)`. -/
theorem C7_ucb1_formula :
    (∀ (c : ℝ) (n1 n2 : MCTSNode), n1.visits = 0 → 0 < n2.visits →
      n2.ucb1 c < n1.ucb1 c) ∧
    (∀ (c : ℝ) (n : MCTSNode), 1 ≤ n.visits → 1 ≤ n.parentVisits →
      n.ucb1 c =
        ((n.value + c * Real.sqrt (2 * Real.log n.parentVisits / n.visits) : ℝ) :
          WithTop ℝ)) := by
  constructor
  · intro c n1 n2 h1 h2
    rw [MCTSNode.ucb1, MCTSNode.ucb1, if_pos h1, if_neg (by omega)]
    exact WithTop.coe_lt_top _
  · intro c n h1 _
    rw [MCTSNode.ucb1, if_neg (by omega)]

/-- Witness for C7 at concrete nodes. -/
theorem C7_ucb1_formula_witness :
    ((⟨0, 0, 1⟩ : MCTSNode).visits = 0 ∧ 0 < (⟨3, 0, 1⟩ : MCTSNode).visits ∧
      (⟨3, 0, 1⟩ : MCTSNode).ucb1 2 < (⟨0, 0, 1⟩ : MCTSNode).ucb1 2) ∧
    (1 ≤ (⟨3, 0, 1⟩ : MCTSNode).visits ∧
      (⟨3, 0, 1⟩ : MCTSNode).ucb1 2 =
        (((⟨3, 0, 1⟩ : MCTSNode).value
          + 2 * Real.sqrt (2 * Real.log (⟨3, 0, 1⟩ : MCTSNode).parentVisits
              / (⟨3, 0, 1⟩ : MCTSNode).visits) : ℝ) : WithTop ℝ)) :=
  ⟨⟨rfl, by decide, C7_ucb1_formula.1 2 ⟨0, 0, 1⟩ ⟨3, 0, 1⟩ rfl (by decide)⟩,
   ⟨by decide, C7_ucb1_formula.2 2 ⟨3, 0, 1⟩ (by decide) (by decide)⟩⟩

/-- One insertion keeps a layer's knowledge base at or under the cap. -/
theorem kbInsert_length_le (kb : List String) (g : String) (h : kb.length ≤ 20) :
    (kbInsert kb g).length ≤ 20 := by
  rw [kbInsert]
  by_cases h20 : 20 < (kb ++ [g]).length
  · rw [if_pos h20, List.length_drop]
    omega
  · rw [if_neg h20]
    simp only [List.length_append, List.length_cons, List.length_nil] at h20 ⊢
    omega

/-- The fold of insertions keeps the cap from any capped start. -/
theorem kbRun_aux_length_le :
    ∀ (gs : List String) (kb : List String), kb.length ≤ 20 →
      (gs.foldl kbInsert kb).length ≤ 20
  | [], _, h => h
  | g :: gs, kb, h => kbRun_aux_length_le gs (kbInsert kb g) (kbInsert_length_le kb g h)

/-- Claim C6: after every insertion sequence the layer list has at most
20 entries, and an insertion that trips the `len > 20` check leaves
exactly the last 10 elements of the list it trims (the list with the new
entry appended, per the spec's "the list is trimmed to its last 10
entries"). -/
theorem C6_knowledge_base_cap :
    (∀ gs : List String, (kbRun gs).length ≤ 20) ∧
    (∀ (kb : List String) (g : String), 20 < (kb ++ [g]).length →
      (kbInsert kb g).length = 10 ∧ kbInsert kb g = lastTen (kb ++ [g])) := by
  constructor
  · intro gs
    exact kbRun_aux_length_le gs [] (by simp)
  · intro kb g h
    constructor
    · rw [kbInsert, if_pos h, List.length_drop]
      simp only [List.length_append, List.length_cons, List.length_nil] at h ⊢
      omega
    · rw [kbInsert, if_pos h, lastTen]
      rw [show ((kb ++ [g]).reverse.take 10).reverse
            = ((kb ++ [g]).rtake 10) from (List.rtake_eq_reverse_take_reverse _ _).symm]
      rfl

/-- Witness for C6 at a concrete input. -/
theorem C6_knowledge_base_cap_witness :
    20 < (List.replicate 20 "g" ++ ["h"]).length ∧
    (kbInsert (List.replicate 20 "g") "h").length = 10 ∧
    kbInsert (List.replicate 20 "g") "h" = lastTen (List.replicate 20 "g" ++ ["h"]) :=
  ⟨by decide,
   (C6_knowledge_base_cap.2 (List.replicate 20 "g") "h" (by decide)).1,
   (C6_knowledge_base_cap.2 (List.replicate 20 "g") "h" (by decide)).2⟩

/-- The pruning accumulator loop is its accumulator followed by the newly
kept candidates. -/
theorem pruneLoop_eq_append (sim : String → String → ℚ) (thr : ℚ) :
    ∀ (l pruned : List String),
      pruneLoop sim thr pruned l = pruned ++ pruneNew sim thr pruned l := by
  intro l
  induction l with
  | nil => intro pruned; simp [pruneLoop, pruneNew]
  | cons c cs ih =>
    intro pruned
    by_cases h : (pruned.any fun p => decide (thr < sim c p)) = true
    · simp only [pruneLoop, pruneNew, h, if_true]
      exact ih pruned
    · rw [Bool.not_eq_true] at h
      simp only [pruneLoop, pruneNew, h, Bool.false_eq_true, if_false]
      rw [ih (pruned ++ [c])]
      simp

/-- A candidate kept by the greedy pass is kept again on a second pass:
the comparisons it survives are exactly the ones it survived before. -/
theorem pruneNew_idem (sim : String → String → ℚ) (thr : ℚ) :
    ∀ (l pruned : List String),
      pruneNew sim thr pruned (pruneNew sim thr pruned l) = pruneNew sim thr pruned l := by
  intro l
  induction l with
  | nil => intro pruned; simp [pruneNew]
  | cons c cs ih =>
    intro pruned
    by_cases h : (pruned.any fun p => decide (thr < sim c p)) = true
    · simp only [pruneNew, h, if_true]
      exact ih pruned
    · rw [Bool.not_eq_true] at h
      simp only [pruneNew, h, Bool.false_eq_true, if_false]
      rw [ih (pruned ++ [c])]

/-- Claim C9: the similarity pruner is idempotent — applying
`_prune_similar` to its own output removes nothing further. -/
theorem C9_prune_idempotent (ratio : String → String → ℚ) (thr : ℚ)
    (cands : List String) :
    prune_similar ratio thr (prune_similar ratio thr cands) =
      prune_similar ratio thr cands := by
  cases cands with
  | nil => rfl
  | cons c cs =>
    have h1 : prune_similar ratio thr (c :: cs)
        = pruneNew (similarity ratio) thr [] (c :: cs) := by
      rw [prune_similar, pruneLoop_eq_append]
      simp only [List.nil_append]
      rw [if_neg]
      simp [pruneNew]
    have h2 : pruneNew (similarity ratio) thr [] (c :: cs)
        = c :: pruneNew (similarity ratio) thr [c] cs := by
      simp [pruneNew]
    rw [h1, h2, prune_similar, pruneLoop_eq_append]
    simp only [List.nil_append]
    rw [← h2, pruneNew_idem, h2]
    rw [if_neg]
    simp

/-- With no `reward >= 1.0` iteration, the loop runs to the end; once
`best_result` is a success it is never replaced, and otherwise the first
successful result is adopted. -/
theorem searchLoop_no_high :
    ∀ (iters : List IterOutcome) (best : ExecResult),
      (∀ o ∈ iters, o.highReward = false) →
      searchLoop iters best =
        (if best.success = true then best
         else (iters.find? IterOutcome.succeeded).elim best IterOutcome.resultOf,
         iters.length) := by
  intro iters
  induction iters with
  | nil =>
    intro best h
    simp [searchLoop]
  | cons o rest ih =>
    intro best h
    have hrest : ∀ o ∈ rest, o.highReward = false := fun x hx => h x (List.mem_cons_of_mem o hx)
    have ho : o.highReward = false := h o (List.mem_cons_self o rest)
    cases o with
    | skip =>
      have hfind : (IterOutcome.skip :: rest).find? IterOutcome.succeeded
          = rest.find? IterOutcome.succeeded := by
        rw [List.find?_cons_of_neg]
        simp [IterOutcome.succeeded]
      rw [searchLoop, ih best hrest, hfind]
      simp
    | sim rw res =>
      have hrw : ¬ (1 ≤ rw) := by
        simpa [IterOutcome.highReward] using ho
      rw [searchLoop, if_neg hrw]
      by_cases hcond : (res.success && !best.success) = true
      · obtain ⟨hres, hbest⟩ := Bool.and_eq_true_iff.mp hcond
        rw [Bool.not_eq_true'] at hbest
        have hfind : (IterOutcome.sim rw res :: rest).find? IterOutcome.succeeded
            = some (IterOutcome.sim rw res) := by
          rw [List.find?_cons_of_pos]
          exact hres
        rw [if_pos hcond, ih res hrest, hfind]
        simp [hres, hbest, IterOutcome.resultOf]
      · rw [if_neg hcond]
        rw [Bool.and_eq_true_iff] at hcond
        push_neg at hcond
        by_cases hbest : best.success = true
        · simp only [ih best hrest, hbest, if_true, List.length_cons]
        · have hres : res.success = false := by
            rw [Bool.not_eq_true] at hbest
            by_cases hr : res.success = true
            · exact absurd (by simp [hbest] : (!best.success) = true) (hcond hr)
            · exact Bool.not_eq_true _ |>.mp hr
          have hfind : (IterOutcome.sim rw res :: rest).find? IterOutcome.succeeded
              = rest.find? IterOutcome.succeeded := by
            rw [List.find?_cons_of_neg]
            simp [IterOutcome.succeeded, hres]
          simp only [ih best hrest, hfind, List.length_cons]

/-- The first `reward >= 1.0` iteration ends the loop at once with its
result, whatever `best_result` held before. -/
theorem searchLoop_first_high (rw : ℚ) (res : ExecResult) (post : List IterOutcome)
    (hrw : 1 ≤ rw) :
    ∀ (pre : List IterOutcome) (best : ExecResult),
      (∀ o ∈ pre, o.highReward = false) →
      searchLoop (pre ++ .sim rw res :: post) best = (res, pre.length + 1) := by
  intro pre
  induction pre with
  | nil =>
    intro best _
    simp [searchLoop, if_pos hrw]
  | cons o pre' ih =>
    intro best h
    have hpre : ∀ x ∈ pre', x.highReward = false := fun x hx => h x (List.mem_cons_of_mem o hx)
    have ho : o.highReward = false := h o (List.mem_cons_self o pre')
    cases o with
    | skip =>
      rw [List.cons_append, searchLoop]
      rw [ih best hpre]
      simp
    | sim rw' res' =>
      have hrw' : ¬ (1 ≤ rw') := by
        simpa [IterOutcome.highReward] using ho
      rw [List.cons_append, searchLoop, if_neg hrw']
      by_cases hcond : (res'.success && !best.success) = true
      · rw [if_pos hcond, ih res' hpre]
        simp
      · rw [if_neg hcond, ih best hpre]
        simp

/-- Claim C1: if an iteration reaches `reward >= 1.0`, its result becomes
`best_result` and the loop stops right there (after `pre.length + 1`
iterations); with no such iteration the loop runs all iterations and
returns the first successful result, or the initial sentinel when none
succeeded. -/
theorem C1_search_tracking :
    (∀ (pre : List IterOutcome) (rw : ℚ) (res : ExecResult) (post : List IterOutcome),
      (∀ o ∈ pre, o.highReward = false) → 1 ≤ rw →
      MCTS.search (pre ++ .sim rw res :: post) = (res, pre.length + 1)) ∧
    (∀ iters : List IterOutcome, (∀ o ∈ iters, o.highReward = false) →
      MCTS.search iters =
        ((iters.find? IterOutcome.succeeded).elim initBest IterOutcome.resultOf,
         iters.length)) := by
  constructor
  · intro pre rw res post hpre hrw
    exact searchLoop_first_high rw res post hrw pre initBest hpre
  · intro iters h
    rw [MCTS.search, searchLoop_no_high iters initBest h, if_neg]
    simp [initBest]

/-- Witness for C1 at concrete runs: an early exit after a skipped first
iteration, and a full run that keeps the first success. -/
theorem C1_search_tracking_witness :
    ((∀ o ∈ [IterOutcome.skip], o.highReward = false) ∧ (1 : ℚ) ≤ 1 ∧
      MCTS.search [.skip, .sim 1 ⟨true, "42", ""⟩, .sim 0 ⟨true, "7", ""⟩]
        = (⟨true, "42", ""⟩, 2)) ∧
    ((∀ o ∈ [IterOutcome.sim 0 ⟨false, "", "x"⟩, IterOutcome.sim 0 ⟨true, "5", ""⟩,
        IterOutcome.sim 0 ⟨true, "9", ""⟩], o.highReward = false) ∧
      MCTS.search [.sim 0 ⟨false, "", "x"⟩, .sim 0 ⟨true, "5", ""⟩, .sim 0 ⟨true, "9", ""⟩]
        = (⟨true, "5", ""⟩, 3)) := by
  refine ⟨⟨by decide, le_refl 1, ?_⟩, ⟨by decide, ?_⟩⟩
  · exact C1_search_tracking.1 [.skip] 1 ⟨true, "42", ""⟩ [.sim 0 ⟨true, "7", ""⟩]
      (by decide) (by decide)
  · exact (C1_search_tracking.2
      [.sim 0 ⟨false, "", "x"⟩, .sim 0 ⟨true, "5", ""⟩, .sim 0 ⟨true, "9", ""⟩]
      (by decide)).trans (by decide)

/-- One backpropagation update is a convex combination of the old value
and the clamped reward, so it preserves the `[0, 1]` bounds. -/
theorem backpropStep_bounds (n : ℕ) (v r u : ℝ) (hv0 : 0 ≤ v) (hv1 : v ≤ 1)
    (hr0 : 0 ≤ r) (hr1 : r ≤ 1) (hu : 0 ≤ u) :
    0 ≤ v + Real.exp (-u) * (r - v) / ((n + 1 : ℕ) : ℝ) ∧
      v + Real.exp (-u) * (r - v) / ((n + 1 : ℕ) : ℝ) ≤ 1 := by
  have hcast : ((n + 1 : ℕ) : ℝ) = (n : ℝ) + 1 := by push_cast; ring
  rw [hcast]
  have hrho0 : 0 < Real.exp (-u) := Real.exp_pos _
  have hrho1 : Real.exp (-u) ≤ 1 := by
    have h := Real.exp_le_exp.mpr (neg_nonpos.mpr hu)
    rwa [Real.exp_zero] at h
  have hn1 : (1 : ℝ) ≤ (n : ℝ) + 1 := by
    have : (0 : ℝ) ≤ (n : ℝ) := Nat.cast_nonneg n
    linarith
  have hnpos : (0 : ℝ) < (n : ℝ) + 1 := by linarith
  set k : ℝ := Real.exp (-u) / ((n : ℝ) + 1) with hk
  have hk0 : 0 ≤ k := le_of_lt (div_pos hrho0 hnpos)
  have hk1 : k ≤ 1 := by
    rw [hk, div_le_one hnpos]
    linarith
  have he : v + Real.exp (-u) * (r - v) / (n + 1) = (1 - k) * v + k * r := by
    rw [hk]
    field_simp
    ring
  rw [he]
  constructor
  · have h1 : 0 ≤ (1 - k) * v := mul_nonneg (by linarith) hv0
    have h2 : 0 ≤ k * r := mul_nonneg hk0 hr0
    linarith
  · have h1 : (1 - k) * v ≤ (1 - k) * 1 := mul_le_mul_of_nonneg_left hv1 (by linarith)
    have h2 : k * r ≤ k * 1 := mul_le_mul_of_nonneg_left hr1 hk0
    rw [mul_one] at h1 h2
    linarith

/-- The `[0, 1]` bound on `value` is preserved along the whole fold, from
any visit count and any in-bounds starting value. -/
theorem backprop_fold_bounds :
    ∀ (updates : List (ℝ × ℝ)) (n : ℕ) (v : ℝ), 0 ≤ v → v ≤ 1 →
      (∀ u ∈ updates, 0 ≤ u.1 ∧ u.1 ≤ 1 ∧ 0 ≤ u.2) →
      0 ≤ (updates.foldl backpropStep (n, v)).2 ∧
        (updates.foldl backpropStep (n, v)).2 ≤ 1 := by
  intro updates
  induction updates with
  | nil =>
    intro n v hv0 hv1 _
    exact ⟨hv0, hv1⟩
  | cons ru rest ih =>
    intro n v hv0 hv1 h
    have hru := h ru (List.mem_cons_self ru rest)
    have hrest : ∀ u ∈ rest, 0 ≤ u.1 ∧ u.1 ≤ 1 ∧ 0 ≤ u.2 :=
      fun u hu => h u (List.mem_cons_of_mem ru hu)
    have hstep := backpropStep_bounds n v ru.1 ru.2 hv0 hv1 hru.1 hru.2.1 hru.2.2
    have hfold : List.foldl backpropStep (n, v) (ru :: rest)
        = List.foldl backpropStep
            (n + 1, v + Real.exp (-ru.2) * (ru.1 - v) / ((n + 1 : ℕ) : ℝ)) rest := by
      rw [List.foldl_cons]
      rfl
    rw [hfold]
    exact ih (n + 1) _ hstep.1 hstep.2 hrest

/-- Claim C5: starting from `value = 0`, any finite sequence of
backpropagation updates with rewards in `[0, 1]` and nonnegative global
uncertainties (so `rho = exp(-u) ∈ (0, 1]`) keeps the node's value inside
`[0, 1]`. -/
theorem C5_value_bounded (updates : List (ℝ × ℝ))
    (h : ∀ u ∈ updates, 0 ≤ u.1 ∧ u.1 ≤ 1 ∧ 0 ≤ u.2) :
    0 ≤ (backpropValue updates).2 ∧ (backpropValue updates).2 ≤ 1 :=
  backprop_fold_bounds updates 0 0 le_rfl zero_le_one h

/-- Witness for C5 at a concrete update sequence. -/
theorem C5_value_bounded_witness :
    0 ≤ (backpropValue [(1, 0), (0, 2)]).2 ∧ (backpropValue [(1, 0), (0, 2)]).2 ≤ 1 :=
  C5_value_bounded [(1, 0), (0, 2)] (by
    intro u hu
    rcases List.mem_cons.mp hu with h1 | h2
    · rw [h1]
      refine ⟨zero_le_one, le_refl 1, le_refl 0⟩
    · rw [List.mem_singleton.mp h2]
      refine ⟨le_refl 0, zero_le_one, by positivity⟩)

/-- Claim C8: a non-root, non-leaf node below layer 6 whose trigger is
set and whose local uncertainty exceeds the threshold is returned by
SELECT itself (Dynamic Expansion) — the walk does not pick an unvisited
child and does not descend by UCB1. -/
theorem C8_dynamic_expansion (eta : ℚ) (cexp : ℝ) (pick : List STree → STree)
    (fuel : ℕ) (t : STree) (hfuel : 1 ≤ fuel) (hleaf : t.children ≠ [])
    (hlayer : t.layer < 6) (htrig : t.trigger = true) (hu : eta < t.localU) :
    MCTS.selectAux eta cexp pick fuel false t = t := by
  obtain ⟨f, rfl⟩ : ∃ f, fuel = f + 1 := ⟨fuel - 1, by omega⟩
  rw [MCTS.selectAux, if_pos]
  have h1 : t.children.isEmpty = false := by
    rw [List.isEmpty_eq_false]
    exact hleaf
  have h2 : (t.layer != 6) = true := by
    rw [bne_iff_ne]
    omega
  simp [h1, h2, htrig, hu]

/-- Witness for C8 at a concrete triggered node. -/
theorem C8_dynamic_expansion_witness :
    1 ≤ 1 ∧
    (STree.mk 2 3 0 true 1 [STree.mk 3 0 0 false 0 []]).children ≠ [] ∧
    (STree.mk 2 3 0 true 1 [STree.mk 3 0 0 false 0 []]).layer < 6 ∧
    (STree.mk 2 3 0 true 1 [STree.mk 3 0 0 false 0 []]).trigger = true ∧
    (0 : ℚ) < (STree.mk 2 3 0 true 1 [STree.mk 3 0 0 false 0 []]).localU ∧
    MCTS.selectAux 0 2 (fun _ => STree.mk 0 0 0 false 0 []) 1 false
        (STree.mk 2 3 0 true 1 [STree.mk 3 0 0 false 0 []])
      = STree.mk 2 3 0 true 1 [STree.mk 3 0 0 false 0 []] :=
  ⟨le_refl 1, List.cons_ne_nil _ _, by decide, rfl, by decide,
   C8_dynamic_expansion 0 2 (fun _ => STree.mk 0 0 0 false 0 []) 1
     (STree.mk 2 3 0 true 1 [STree.mk 3 0 0 false 0 []])
     (le_refl 1) (List.cons_ne_nil _ _) (by decide) rfl (by decide)⟩

/-- A greedy run never crosses an element that fails the predicate. -/
theorem takeWhile_append_stop (p : Char → Bool) (x : Char) (hx : p x = false)
    (a b : List Char) : (a ++ x :: b).takeWhile p = a.takeWhile p := by
  induction a with
  | nil => simp [List.takeWhile_cons, hx]
  | cons c a' ih =>
    cases hc : p c with
    | true => simp [List.takeWhile_cons, hc, ih]
    | false => simp [List.takeWhile_cons, hc]

/-- Dropping a greedy run stops at the first failing element, so the
suffix after it survives unchanged. -/
theorem dropWhile_append_stop (p : Char → Bool) (x : Char) (hx : p x = false)
    (a b : List Char) : (a ++ x :: b).dropWhile p = a.dropWhile p ++ x :: b := by
  induction a with
  | nil => simp [List.dropWhile_cons, hx]
  | cons c a' ih =>
    cases hc : p c with
    | true => simp [List.dropWhile_cons, hc, ih]
    | false => simp [List.dropWhile_cons, hc]

/-- A digit is not a sign character. -/
theorem digit_not_sign {c : Char} (h : c.isDigit = true) : isSign c = false := by
  have h1 : c ≠ '-' := by intro e; rw [e] at h; exact absurd h (by decide)
  have h2 : c ≠ '+' := by intro e; rw [e] at h; exact absurd h (by decide)
  simp [isSign, h1, h2]

/-- A digit is not a dot. -/
theorem digit_ne_dot {c : Char} (h : c.isDigit = true) : c ≠ '.' := by
  intro e
  rw [e] at h
  exact absurd h (by decide)

/-- The dash is not a digit. -/
theorem dash_not_digit : ('-').isDigit = false := by decide

/-- At a nonempty all-digit suffix the pattern matches the whole run via
the `\d+` alternative (the decimal alternative fails for want of a dot). -/
theorem matchNumAt_all_digits (c : Char) (cs : List Char)
    (hd : ∀ x ∈ c :: cs, x.isDigit = true) :
    matchNumAt (c :: cs) = some (c :: cs, []) := by
  have hc : c.isDigit = true := hd c (List.mem_cons_self c cs)
  have htake : (c :: cs).takeWhile Char.isDigit = c :: cs :=
    List.takeWhile_eq_self_iff.mpr hd
  have hdrop : (c :: cs).dropWhile Char.isDigit = [] :=
    List.dropWhile_eq_nil_iff.mpr hd
  have hbd : branchDec (c :: cs) = none := by
    rw [branchDec]
    have hss : stripSign (c :: cs) = ([], c :: cs) := by
      rw [stripSign, if_neg]
      rw [digit_not_sign hc]
      simp
    rw [hss]
    rw [show branchDecCore (c :: cs) = none from by rw [branchDecCore]; rw [hdrop]]
  rw [matchNumAt, hbd, branchInt, if_pos hc, htake, hdrop]

/-- At `'-'` followed by a pure digit run the pattern fails entirely: the
decimal alternative needs a dot after the digits and the integer
alternative admits no sign. -/
theorem matchNumAt_dash (d : List Char) (hd : ∀ x ∈ d, x.isDigit = true) :
    matchNumAt ('-' :: d) = none := by
  have hdrop : d.dropWhile Char.isDigit = [] := List.dropWhile_eq_nil_iff.mpr hd
  have hbd : branchDec ('-' :: d) = none := by
    rw [branchDec]
    have hss : stripSign ('-' :: d) = (['-'], d) := by
      rw [stripSign, if_pos]
      rfl
    rw [hss]
    rw [show branchDecCore d = none from by rw [branchDecCore]; rw [hdrop]]
  rw [matchNumAt, hbd, branchInt, if_neg]
  rw [dash_not_digit]
  simp

/-- If the decimal alternative's sign-free core matches at the head of
`a ++ '-' :: d`, everything it consumes lies inside `a`: the rest starts
with a (shorter) remainder of `a` still followed by `'-' :: d`. -/
theorem branchDecCore_split (a d : List Char) (q : List Char × List Char)
    (h : branchDecCore (a ++ '-' :: d) = some q) :
    ∃ m2, q.2 = m2 ++ '-' :: d ∧ m2.length + 1 ≤ a.length := by
  rw [branchDecCore, dropWhile_append_stop Char.isDigit '-' dash_not_digit a d] at h
  cases hdw : a.dropWhile Char.isDigit with
  | nil =>
    rw [hdw, List.nil_append] at h
    dsimp only at h
    rw [if_neg (show ¬ ('-' : Char) = '.' from by decide)] at h
    exact absurd h (by simp)
  | cons y m2' =>
    rw [hdw, List.cons_append] at h
    dsimp only at h
    by_cases hy : y = '.'
    · rw [if_pos hy] at h
      by_cases he : ((m2' ++ '-' :: d).takeWhile Char.isDigit).isEmpty = true
      · rw [if_pos he] at h
        exact absurd h (by simp)
      · rw [if_neg he] at h
        have hq := (Option.some_inj.mp h).symm
        refine ⟨m2'.dropWhile Char.isDigit, ?_, ?_⟩
        · rw [hq]
          exact dropWhile_append_stop Char.isDigit '-' dash_not_digit m2' d
        · have h1 : (m2'.dropWhile Char.isDigit).length ≤ m2'.length :=
            (List.dropWhile_sublist Char.isDigit).length_le
          have h2 : (a.dropWhile Char.isDigit).length ≤ a.length :=
            (List.dropWhile_sublist Char.isDigit).length_le
          rw [hdw] at h2
          simp only [List.length_cons] at h2
          omega
    · rw [if_neg hy] at h
      simp at h

/-- At any position strictly before the final `'-' :: digits` suffix, a
successful match consumes characters from the prefix only: every
consumed character after the first is a digit or a dot, and the dash is
neither, so the remainder still ends with the untouched `'-' :: d`. -/
theorem matchNumAt_split (c : Char) (m d : List Char) (q : List Char × List Char)
    (h : matchNumAt (c :: (m ++ '-' :: d)) = some q) :
    ∃ m2, q.2 = m2 ++ '-' :: d ∧ m2.length ≤ m.length := by
  rw [matchNumAt] at h
  cases hbd : branchDec (c :: (m ++ '-' :: d)) with
  | some q' =>
    rw [hbd] at h
    dsimp only at h
    have hq : q' = q := Option.some_inj.mp h
    subst hq
    rw [branchDec] at hbd
    by_cases hs : isSign c = true
    · have hss : stripSign (c :: (m ++ '-' :: d)) = ([c], m ++ '-' :: d) := by
        rw [stripSign, if_pos hs]
      rw [hss] at hbd
      cases hcore : branchDecCore (m ++ '-' :: d) with
      | none =>
        rw [hcore] at hbd
        exact absurd hbd (by simp)
      | some q2 =>
        obtain ⟨tok, r⟩ := q2
        rw [hcore] at hbd
        dsimp only at hbd
        have heq := Option.some_inj.mp hbd
        obtain ⟨m2, hm2, hlen⟩ := branchDecCore_split m d (tok, r) hcore
        refine ⟨m2, ?_, by omega⟩
        rw [← heq]
        exact hm2
    · have hs' : isSign c = false := by rw [Bool.not_eq_true] at hs; exact hs
      have hss : stripSign (c :: (m ++ '-' :: d)) = ([], c :: (m ++ '-' :: d)) := by
        rw [stripSign, if_neg]
        rw [hs']
        simp
      rw [hss] at hbd
      cases hcore : branchDecCore ((c :: m) ++ '-' :: d) with
      | none =>
        rw [show (c :: m) ++ '-' :: d = c :: (m ++ '-' :: d) from rfl] at hcore
        rw [hcore] at hbd
        exact absurd hbd (by simp)
      | some q2 =>
        obtain ⟨tok, r⟩ := q2
        rw [show (c :: m) ++ '-' :: d = c :: (m ++ '-' :: d) from rfl] at hcore
        rw [hcore] at hbd
        dsimp only at hbd
        have heq := Option.some_inj.mp hbd
        rw [show c :: (m ++ '-' :: d) = (c :: m) ++ '-' :: d from rfl] at hcore
        obtain ⟨m2, hm2, hlen⟩ := branchDecCore_split (c :: m) d (tok, r) hcore
        simp only [List.length_cons] at hlen
        refine ⟨m2, ?_, by omega⟩
        rw [← heq]
        exact hm2
  | none =>
    rw [hbd] at h
    dsimp only at h
    rw [branchInt] at h
    by_cases hc : c.isDigit = true
    · rw [if_pos hc] at h
      have heq := Option.some_inj.mp h
      refine ⟨(c :: m).dropWhile Char.isDigit, ?_, ?_⟩
      · rw [← heq]
        show (c :: (m ++ '-' :: d)).dropWhile Char.isDigit = _
        rw [show c :: (m ++ '-' :: d) = (c :: m) ++ '-' :: d from rfl]
        exact dropWhile_append_stop Char.isDigit '-' dash_not_digit (c :: m) d
      · rw [List.dropWhile_cons_of_pos hc]
        exact (List.dropWhile_sublist Char.isDigit).length_le
    · rw [if_neg hc] at h
      exact absurd h (by simp)

/-- Out of characters, the scan yields nothing, with any fuel. -/
theorem scanLoop_nil : ∀ k : ℕ, scanLoop k [] = []
  | 0 => rfl
  | _ + 1 => rfl

/-- A nonempty all-digit string scans to exactly one token: itself. -/
theorem scanLoop_all_digits (k : ℕ) (d : List Char) (hne : d ≠ [])
    (hd : ∀ x ∈ d, x.isDigit = true) (hlen : d.length ≤ k) :
    scanLoop k d = [d] := by
  cases k with
  | zero =>
    cases d with
    | nil => exact absurd rfl hne
    | cons c cs => simp at hlen
  | succ k' =>
    cases d with
    | nil => exact absurd rfl hne
    | cons c cs =>
      rw [scanLoop, matchNumAt_all_digits c cs hd]
      dsimp only
      rw [scanLoop_nil k']

/-- Prepending to a list with a known nonempty tail keeps its last element. -/
theorem getLast?_cons_of_ne_nil (x : List Char) (L : List (List Char)) (h : L ≠ []) :
    (x :: L).getLast? = L.getLast? := by
  cases L with
  | nil => exact absurd rfl h
  | cons y L' => exact List.getLast?_cons_cons

/-- Scanning any string that ends in `'-'` followed by a bare digit run:
the final token found is exactly that digit run (the dash is dropped). -/
theorem scanLoop_last_neg :
    ∀ (fuel : ℕ) (m d : List Char), (m ++ '-' :: d).length ≤ fuel →
      d ≠ [] → (∀ x ∈ d, x.isDigit = true) →
      (scanLoop fuel (m ++ '-' :: d)).getLast? = some d := by
  intro fuel
  induction fuel with
  | zero =>
    intro m d hlen _ _
    simp at hlen
  | succ k ih =>
    intro m d hlen hne hd
    cases m with
    | nil =>
      rw [List.nil_append] at hlen ⊢
      rw [scanLoop, matchNumAt_dash d hd]
      dsimp only
      have hlen' : d.length ≤ k := by
        simp only [List.length_cons] at hlen
        omega
      rw [scanLoop_all_digits k d hne hd hlen']
      rfl
    | cons c m' =>
      rw [List.cons_append] at hlen ⊢
      cases hm : matchNumAt (c :: (m' ++ '-' :: d)) with
      | none =>
        rw [scanLoop, hm]
        dsimp only
        have hlen' : (m' ++ '-' :: d).length ≤ k := by
          simp only [List.length_cons] at hlen
          omega
        exact ih m' d hlen' hne hd
      | some q =>
        obtain ⟨tok, r⟩ := q
        rw [scanLoop, hm]
        dsimp only
        obtain ⟨m2, hr, hm2⟩ := matchNumAt_split c m' d (tok, r) hm
        dsimp only at hr
        subst hr
        have hlen' : (m2 ++ '-' :: d).length ≤ k := by
          simp only [List.length_append, List.length_cons] at hlen ⊢
          omega
        have hrec := ih m2 d hlen' hne hd
        have hne' : scanLoop k (m2 ++ '-' :: d) ≠ [] := by
          intro hcon
          rw [hcon] at hrec
          exact absurd hrec (by simp)
        rw [getLast?_cons_of_ne_nil tok _ hne']
        exact hrec

/-- A pure digit token parses as its digit-run value: no sign, no dot. -/
theorem tokenToRat_all_digits (d : List Char) (hne : d ≠ [])
    (hd : ∀ x ∈ d, x.isDigit = true) : tokenToRat d = (digitsToNat d : ℚ) := by
  cases d with
  | nil => exact absurd rfl hne
  | cons c cs =>
    have hc := hd c (List.mem_cons_self c cs)
    rw [tokenToRat]
    rw [if_neg (fun e => by rw [e] at hc; exact absurd hc (by decide))]
    rw [if_neg (fun e => by rw [e] at hc; exact absurd hc (by decide))]
    have hall : ∀ x ∈ c :: cs, (x != '.') = true := by
      intro x hx
      have hxd := digit_ne_dot (hd x hx)
      simp [bne_iff_ne, hxd]
    simp only [unsignedToRat]
    rw [List.takeWhile_eq_self_iff.mpr hall, List.dropWhile_eq_nil_iff.mpr hall]

/-- `extract_answer` on output ending in `-digits`: the sign is lost and
the bare digit-run value comes back. -/
theorem extract_answer_neg (t : String) (d : List Char) (hne : d ≠ [])
    (hd : ∀ x ∈ d, x.isDigit = true) :
    extract_answer (t ++ "-" ++ String.mk d) = some ((digitsToNat d : ℚ)) := by
  have hdash : ("-" : String).data = ['-'] := rfl
  have hmk : (String.mk d).data = d := rfl
  have hdata : (t ++ "-" ++ String.mk d).data = t.data ++ '-' :: d := by
    rw [String.data_append, String.data_append, hdash, hmk, List.append_assoc]
    rfl
  have hscan : (scanNums (t ++ "-" ++ String.mk d).data).getLast? = some d := by
    rw [hdata, scanNums]
    exact scanLoop_last_neg _ t.data d le_rfl hne hd
  rw [extract_answer, hscan]
  dsimp only
  rw [tokenToRat_all_digits d hne hd]

/-- Against a negative integer expected answer, a nonnegative extracted
value never passes the relative-error test: the error is at least twice
the magnitude. -/
theorem evaluate_nonneg_of_neg_int (p : ℚ) (e : ℤ) (hp : 0 ≤ p) (he : e < 0) :
    evaluate (some p) (e : ℚ) = false := by
  have heq : (e : ℚ) < 0 := by exact_mod_cast he
  have he1 : (e : ℚ) ≤ -1 := by
    have h : e ≤ -1 := by omega
    exact_mod_cast h
  have habs : |(e : ℚ)| = -(e : ℚ) := abs_of_neg heq
  have hgt : (1e-8 : ℚ) < |(e : ℚ)| := by
    rw [habs]
    norm_num
    linarith
  rw [evaluate, if_pos hgt, decide_eq_false_iff_not]
  intro hcon
  have h1 : |p - (e : ℚ)| = p - (e : ℚ) := abs_of_nonneg (by linarith)
  have hratio : (1 : ℚ) ≤ |p - (e : ℚ)| / |(e : ℚ)| := by
    rw [habs, h1, le_div_iff₀ (by linarith : (0 : ℚ) < -(e : ℚ))]
    linarith
  have h01 : (0.1 : ℚ) < 1 := by norm_num
  linarith

/-- Claim C10: when the output ends in a negative integer written without
a decimal point, `extract_answer` returns the positive magnitude (the
extraction pattern only allows a sign on numbers with a dot), and hence
the ground-truth override never fires for a negative-integer expected
answer over such output — the reward stays at the formula value. -/
theorem C10_negative_integer_magnitude :
    (∀ (t : String) (d : List Char), d ≠ [] → (∀ x ∈ d, x.isDigit = true) →
      extract_answer (t ++ "-" ++ String.mk d) = some ((digitsToNat d : ℚ)) ∧
        0 ≤ ((digitsToNat d : ℚ))) ∧
    (∀ (t : String) (d : List Char) (e : ℤ) (success : Bool) (err : String)
        (scores : List ℚ), d ≠ [] → (∀ x ∈ d, x.isDigit = true) → e < 0 →
      MCTS.simulateReward ⟨success, t ++ "-" ++ String.mk d, err⟩ scores (some (e : ℚ))
        = baseReward success scores) := by
  constructor
  · intro t d hne hd
    exact ⟨extract_answer_neg t d hne hd, by positivity⟩
  · intro t d e success err scores hne hd he
    have hex := extract_answer_neg t d hne hd
    have hev : evaluate (extract_answer (t ++ "-" ++ String.mk d)) (e : ℚ) = false := by
      rw [hex]
      exact evaluate_nonneg_of_neg_int _ e (by positivity) he
    simp only [MCTS.simulateReward, hev]
    simp

/-- Witness for C10 at the concrete output `"ans: -5"` and expected `-5`. -/
theorem C10_negative_integer_magnitude_witness :
    (['5'] ≠ ([] : List Char) ∧ (∀ x ∈ ['5'], Char.isDigit x = true) ∧
      extract_answer ("ans: " ++ "-" ++ String.mk ['5'])
        = some ((digitsToNat ['5'] : ℚ)) ∧ 0 ≤ ((digitsToNat ['5'] : ℚ))) ∧
    (((-5 : ℤ) < 0) ∧
      MCTS.simulateReward ⟨true, "ans: " ++ "-" ++ String.mk ['5'], ""⟩ [80]
          (some ((-5 : ℤ) : ℚ))
        = baseReward true [80]) :=
  ⟨⟨List.cons_ne_nil _ _, by decide,
    (C10_negative_integer_magnitude.1 "ans: " ['5'] (List.cons_ne_nil _ _) (by decide)).1,
    (C10_negative_integer_magnitude.1 "ans: " ['5'] (List.cons_ne_nil _ _) (by decide)).2⟩,
   ⟨by decide,
    C10_negative_integer_magnitude.2 "ans: " ['5'] (-5) true "" [80]
      (List.cons_ne_nil _ _) (by decide) (by decide)⟩⟩

/-- Claim C4: the ground-truth comparison uses relative error below 10%
when `|expected| > 1e-8` and absolute error below `1e-4` otherwise, a
missing extracted value never matches, and when the override condition
holds (answer supplied, result valid, comparison true) the simulation
reward is exactly 1 whatever the formula reward would have been. -/
theorem C4_ground_truth_override :
    (∀ e : ℚ, evaluate none e = false) ∧
    (∀ p e : ℚ, 1e-8 < |e| →
      (evaluate (some p) e = true ↔ |p - e| < |e| / 10)) ∧
    (∀ p e : ℚ, ¬ (1e-8 < |e|) →
      (evaluate (some p) e = true ↔ |p - e| < 1e-4)) ∧
    (∀ (r : ExecResult) (scores : List ℚ) (e : ℚ),
      is_valid r = true → evaluate (extract_answer r.output) e = true →
      MCTS.simulateReward r scores (some e) = 1) := by
  refine ⟨fun e => rfl, ?_, ?_, ?_⟩
  · intro p e he
    rw [evaluate, if_pos he, decide_eq_true_eq]
    have hpos : (0 : ℚ) < |e| := lt_trans (by norm_num) he
    rw [div_lt_iff₀ hpos]
    constructor
    · intro h
      calc |p - e| < 0.1 * |e| := h
        _ = |e| / 10 := by ring
    · intro h
      calc |p - e| < |e| / 10 := h
        _ = 0.1 * |e| := by ring
  · intro p e he
    rw [evaluate, if_neg he, decide_eq_true_eq]
  · intro r scores e hv hev
    simp only [MCTS.simulateReward]
    rw [if_pos hv, if_pos hev]

/-- Witness for C4: the relative branch at `expected = 42`, and the
override firing on a valid result printing `42`. -/
theorem C4_ground_truth_override_witness :
    ((1e-8 : ℚ) < |(42 : ℚ)| ∧
      (evaluate (some 42) 42 = true ↔ |(42 : ℚ) - 42| < |(42 : ℚ)| / 10)) ∧
    (is_valid ⟨true, "42", ""⟩ = true ∧
      evaluate (extract_answer (ExecResult.mk true "42" "").output) 42 = true ∧
      MCTS.simulateReward ⟨true, "42", ""⟩ [0] (some 42) = 1) := by
  have h8 : (1e-8 : ℚ) < |(42 : ℚ)| := by norm_num
  have hex : extract_answer "42" = some ((42 : ℕ) : ℚ) := by
    have hscan : (scanNums ("42" : String).data).getLast? = some ['4', '2'] := by decide
    rw [extract_answer, hscan]
    dsimp only
    rw [tokenToRat_all_digits ['4', '2'] (List.cons_ne_nil _ _) (by decide)]
    rfl
  have hev : evaluate (extract_answer (ExecResult.mk true "42" "").output) 42 = true := by
    show evaluate (extract_answer "42") 42 = true
    rw [hex]
    rw [(C4_ground_truth_override.2.1 ((42 : ℕ) : ℚ) 42 (by norm_num))]
    norm_num
  refine ⟨⟨h8, C4_ground_truth_override.2.1 42 42 h8⟩,
    ⟨by decide, hev, ?_⟩⟩
  exact C4_ground_truth_override.2.2.2 ⟨true, "42", ""⟩ [0] 42 (by decide) hev
